import Mathlib

/-!
Verification of the Postman-collection generator pipeline
(`scripts/postman_generator/endpoint_extractor.py` and
`scripts/postman_generator/collection_builder.py`).

The Python code is shallowly embedded: strings are Lean `String`s
(operated on mostly as `List Char`), Python dicts with fixed key sets
become structures, Python dicts used as finite maps become association
lists, and the regex scans of `re.finditer` are embedded as explicit
fuel-indexed left-to-right scanning functions specialized to the five
concrete route patterns.  All definitions are executable.

Scope notes, mirroring the code:
* `extract_from_file` receives the file's text directly (the `open`/read
  is I/O around the core logic).
* The builder's metadata table (loaded from `endpoint_metadata.json`) is
  passed as an association list from handler name to entry; the example
  `body`/`response` payloads are carried as their serialized JSON text,
  since the code only ever serializes them opaquely with `json.dumps`.
* Character classes (`\w`, `\s`, `str.lower`, `str.isupper`) are embedded
  at their ASCII meaning, which is exact for the route-file texts the
  tool consumes.
-/

/-- ASCII embedding of the regex class `\w`: letters, digits, underscore. -/
def isWordChar (c : Char) : Bool := c.isAlphanum || c = '_'

/-- ASCII embedding of the regex class `\s`. -/
def isSpaceChar (c : Char) : Bool :=
  c = ' ' || c = '\t' || c = '\n' || c = '\r' || c = '\x0b' || c = '\x0c'

/-- Embedding of Python `str.lower` (ASCII). -/
def lowerL (s : List Char) : List Char := s.map Char.toLower

/-- Boolean list-prefix. -/
def isPfx : List Char → List Char → Bool
  | [], _ => true
  | _ :: _, [] => false
  | a :: as, b :: bs => a = b && isPfx as bs

/-- Embedding of Python's substring test `pat in s`. -/
def containsSub (pat : List Char) : List Char → Bool
  | [] => pat.isEmpty
  | c :: rest => isPfx pat (c :: rest) || containsSub pat rest

/-- String-level wrapper for `containsSub`. -/
def containsStr (pat s : String) : Bool := containsSub pat.toList s.toList

/-- One attempted match of the pattern
`(\w+)\.VERB\("([^"]+)",\s*(\w+)` at the head of `s` (the verb is passed
as its character list).  On success returns the three captured groups
(receiver, path, handler) and the rest of the input after the match,
exactly as the backtracking regex engine would:  each quantified piece
is forced to its maximal run, since the following literal can never
satisfy the quantifier's class. -/
def matchAt (v : List Char) (s : List Char) :
    Option ((List Char × List Char × List Char) × List Char) :=
  match s.takeWhile isWordChar, s.dropWhile isWordChar with
  | r₀ :: rr, d :: s2 =>
    if d = '.' then
      if isPfx v s2 then
        match s2.drop v.length with
        | o :: q :: s3 =>
          if o = '(' ∧ q = '"' then
            match s3.takeWhile (fun c => c != '"'), s3.dropWhile (fun c => c != '"') with
            | p₀ :: pp, q2 :: cm :: s5 =>
              if q2 = '"' ∧ cm = ',' then
                match (s5.dropWhile isSpaceChar).takeWhile isWordChar,
                    (s5.dropWhile isSpaceChar).dropWhile isWordChar with
                | h₀ :: hh, rest => some ((r₀ :: rr, p₀ :: pp, h₀ :: hh), rest)
                | _, _ => none
              else none
            | _, _ => none
          else none
        | _ => none
      else none
    else none
  | _, _ => none

/-- Embedding of `re.finditer` for one route pattern: scan left to
right; after a match, continue after its end (non-overlapping matches);
otherwise advance one character.  `fuel` bounds the recursion; the
wrapper supplies `s.length`, which suffices because every step consumes
at least one character. -/
def findIterAux (v : List Char) : Nat → List Char → List (List Char × List Char × List Char)
  | 0, _ => []
  | _ + 1, [] => []
  | fuel + 1, c :: rest =>
    match matchAt v (c :: rest) with
    | some (t, r) => t :: findIterAux v fuel r
    | none => findIterAux v fuel rest

/-- All non-overlapping matches of one route pattern, leftmost first. -/
def findIter (v : List Char) (s : List Char) : List (List Char × List Char × List Char) :=
  findIterAux v s.length s

/-- The `Endpoint` dataclass of `endpoint_extractor.py`. -/
structure Endpoint where
  method : String
  path : String
  handler : String
  auth_required : Bool := true
  description : String := ""
  group : String := ""
deriving DecidableEq, Repr

/-- The five HTTP verbs, in the order the patterns are listed. -/
def verbs : List String := ["GET", "POST", "PUT", "PATCH", "DELETE"]

/-- The auth heuristic of `extract_from_file`:
`auth_required = 'noauth' not in content.lower() or 'protected' in group_var.lower()`. -/
def authRequired (content : String) (group_var : String) : Bool :=
  !containsSub "noauth".toList (lowerL content.toList)
    || containsSub "protected".toList (lowerL group_var.toList)

/-- Embedding of `EndpointExtractor.extract_from_file`, applied to the
file's text: for each verb pattern in order, every non-overlapping match
contributes one `Endpoint` whose method is the pattern's verb. -/
def extract_from_file (content : String) : List Endpoint :=
  verbs.flatMap fun v =>
    (findIter v.toList content.toList).map fun t =>
      { method := v
        path := String.mk t.2.1
        handler := String.mk t.2.2
        auth_required := authRequired content (String.mk t.1)
        group := String.mk t.1 }

/-- The fixed, ordered category taxonomy of `get_grouped_endpoints`. -/
def categories : List String :=
  ["Health", "Authentication", "Onboarding", "Users", "Security", "Wallets",
   "Funding", "Investment", "Portfolio", "Analytics", "Market",
   "Scheduled Investments", "Rebalancing", "Copy Trading", "Roundups",
   "AI Chat", "News", "Webhooks", "Admin"]

/-- The endpoint's lowercased path (the local `path` of the grouping
loop). -/
def lowerPath (ep : Endpoint) : String := String.mk (lowerL ep.path.toList)

/-- The if/elif classification chain of `get_grouped_endpoints`: the
category an endpoint's lowercased path is filed under, or `none` when no
substring predicate matches. -/
def assignCategory (ep : Endpoint) : Option String :=
  if containsStr "/health" (lowerPath ep) || containsStr "/ready" (lowerPath ep)
      || containsStr "/live" (lowerPath ep) || containsStr "/version" (lowerPath ep) then some "Health"
  else if containsStr "/auth" (lowerPath ep) then some "Authentication"
  else if containsStr "/onboarding" (lowerPath ep) then some "Onboarding"
  else if containsStr "/users" (lowerPath ep) then some "Users"
  else if containsStr "/security" (lowerPath ep) || containsStr "/passcode" (lowerPath ep) then some "Security"
  else if containsStr "/wallet" (lowerPath ep) then some "Wallets"
  else if containsStr "/funding" (lowerPath ep) || containsStr "/balances" (lowerPath ep) then some "Funding"
  else if containsStr "/investment" (lowerPath ep) || containsStr "/orders" (lowerPath ep)
      || containsStr "/positions" (lowerPath ep) then some "Investment"
  else if containsStr "/portfolio" (lowerPath ep) then some "Portfolio"
  else if containsStr "/analytics" (lowerPath ep) then some "Analytics"
  else if containsStr "/market" (lowerPath ep) then some "Market"
  else if containsStr "/scheduled" (lowerPath ep) then some "Scheduled Investments"
  else if containsStr "/rebalancing" (lowerPath ep) then some "Rebalancing"
  else if containsStr "/copy" (lowerPath ep) then some "Copy Trading"
  else if containsStr "/roundup" (lowerPath ep) then some "Roundups"
  else if containsStr "/ai" (lowerPath ep) then some "AI Chat"
  else if containsStr "/news" (lowerPath ep) then some "News"
  else if containsStr "/webhook" (lowerPath ep) then some "Webhooks"
  else if containsStr "/admin" (lowerPath ep) then some "Admin"
  else none

/-- Append `ep` to the list of every group entry keyed `c`
(the dict update `groups[c].append(endpoint)`). -/
def addToGroup (groups : List (String × List Endpoint)) (c : String) (ep : Endpoint) :
    List (String × List Endpoint) :=
  groups.map fun p => if p.1 = c then (p.1, p.2 ++ [ep]) else p

/-- One iteration of the classification loop of `get_grouped_endpoints`. -/
def groupStep (groups : List (String × List Endpoint)) (ep : Endpoint) :
    List (String × List Endpoint) :=
  match assignCategory ep with
  | some c => addToGroup groups c ep
  | none => groups

/-- Embedding of `EndpointExtractor.get_grouped_endpoints`, applied to
the extractor's endpoint list: initialize one empty list per category
(in the fixed order), file each endpoint under its first matching
predicate, then drop the empty groups. -/
def get_grouped_endpoints (eps : List Endpoint) : List (String × List Endpoint) :=
  (eps.foldl groupStep (categories.map fun c => (c, []))).filter fun p => !p.2.isEmpty

/-- One metadata entry of `endpoint_metadata.json` (the JSON `body` and
`response` examples are carried as their serialized text). -/
structure MetaEntry where
  description : Option String := none
  body : Option String := none
  response : Option String := none
deriving DecidableEq, Repr

/-- Lookup with fallback, embedding `self.metadata.get(handler_name, {})`. -/
def metaFor (metadata : List (String × MetaEntry)) (handler_name : String) : MetaEntry :=
  (metadata.lookup handler_name).getD {}

/-- Embedding of Python `name.strip()` (surrounding-whitespace trim). -/
def pyStrip (s : List Char) : List Char :=
  ((s.dropWhile isSpaceChar).reverse.dropWhile isSpaceChar).reverse

/-- Embedding of Python `path.strip('/')`. -/
def stripSlashes (s : List Char) : List Char :=
  ((s.dropWhile fun c => c = '/').reverse.dropWhile fun c => c = '/').reverse

/-- Embedding of Python `s.split('/')` (`acc` holds the current field,
reversed): splitting the empty string yields `[""]`, and adjacent
separators yield empty fields, as in Python. -/
def splitSlashAux : List Char → List Char → List String
  | [], acc => [String.mk acc.reverse]
  | c :: rest, acc =>
    if c = '/' then String.mk acc.reverse :: splitSlashAux rest []
    else splitSlashAux rest (c :: acc)

/-- Python `s.split('/')`. -/
def splitSlash (s : List Char) : List String := splitSlashAux s []

/-- Remove every non-overlapping occurrence of `pat`, left to right:
Python `s.replace(pat, '')`.  `fuel` bounds the recursion; the wrapper
supplies `s.length`, enough since each step consumes a character. -/
def removeSubAux (pat : List Char) : Nat → List Char → List Char
  | 0, s => s
  | _ + 1, [] => []
  | fuel + 1, c :: rest =>
    if isPfx pat (c :: rest) then removeSubAux pat fuel ((c :: rest).drop pat.length)
    else c :: removeSubAux pat fuel rest

/-- Python `s.replace(pat, '')`. -/
def removeSub (pat : List Char) (s : List Char) : List Char := removeSubAux pat s.length s

/-- The space-insertion loop of `_format_name`: a space before every
uppercase character at index `> 0` (the index is threaded as `i`). -/
def insertSpaces : Nat → List Char → List Char
  | _, [] => []
  | i, c :: rest =>
    (if c.isUpper && i > 0 then [' ', c] else [c]) ++ insertSpaces (i + 1) rest

/-- Embedding of `PostmanCollectionBuilder._format_name`: drop every
`"Handler"` then every `"handler"` occurrence, insert a space before
internal uppercase letters, and trim. -/
def format_name (name : String) : String :=
  String.mk (pyStrip (insertSpaces 0 (removeSub "handler".toList (removeSub "Handler".toList name.toList))))

/-- The path normalization of `_create_request`:
`path if path.startswith('/') else '/' + path`. -/
def normalizePath (p : String) : String :=
  if isPfx "/".toList p.toList then p else "/" ++ p

/-- One entry of a Postman `response` array as `_create_request` emits it. -/
structure ResponseItem where
  name : String
  status : String
  code : Nat
  previewlanguage : String
  header : List (String × String)
  body : String
deriving DecidableEq, Repr

/-- One Postman request item as `_create_request` emits it (fixed key
set; the optional `auth`/`body` keys become `Bool`/`Option`). -/
structure RequestItem where
  name : String
  method : String
  header : List (String × String)
  urlRaw : String
  urlHost : List String
  urlPath : List String
  description : String
  authNoauth : Bool
  body : Option String
  response : List ResponseItem
deriving DecidableEq, Repr

/-- Embedding of `PostmanCollectionBuilder._create_request`. -/
def create_request (metadata : List (String × MetaEntry)) (ep : Endpoint) : RequestItem :=
  let md := metaFor metadata ep.handler
  let path := normalizePath ep.path
  let hasBody := ["POST", "PUT", "PATCH"].contains ep.method && md.body.isSome
  { name := format_name (if ep.handler = "" then path else ep.handler)
    method := ep.method
    header := if hasBody then [("Content-Type", "application/json")] else []
    urlRaw := "\x7b\x7bbase_url\x7d\x7d" ++ path
    urlHost := ["\x7b\x7bbase_url\x7d\x7d"]
    urlPath := splitSlash (stripSlashes path.toList)
    description := md.description.getD (ep.method ++ " " ++ path)
    authNoauth := !ep.auth_required
    body := if hasBody then md.body else none
    response :=
      match md.response with
      | some resp =>
        [{ name := "Success", status := "OK"
           code := if ep.method = "GET" then 200 else 201
           previewlanguage := "json"
           header := [("Content-Type", "application/json")]
           body := resp }]
      | none => [] }

/-- One `{'key':…, 'value':…, 'type':…}` entry of the builder's fixed
`auth.bearer` / `variable` tables. -/
structure KV where
  key : String
  value : String
  type : String
deriving DecidableEq, Repr

/-- A folder of the collection: `{'name':…, 'description':…, 'item':…}`. -/
structure Folder where
  name : String
  description : String
  item : List RequestItem
deriving DecidableEq, Repr

/-- The collection document built by `PostmanCollectionBuilder` (its
fixed keys flattened into fields; `vars` is the `variable` array). -/
structure Collection where
  info_name : String
  info_description : String
  info_schema : String
  info_version : String
  auth_type : String
  auth_bearer : List KV
  vars : List KV
  item : List Folder
deriving DecidableEq, Repr

/-- The constant collection skeleton of `PostmanCollectionBuilder.__init__`. -/
def initialCollection : Collection :=
  { info_name := "RAIL Service API - Auto-Generated"
    info_description := "Auto-generated comprehensive API collection for RAIL Platform"
    info_schema := "https://schema.getpostman.com/json/collection/v2.1.0/collection.json"
    info_version := "2.0.0"
    auth_type := "bearer"
    auth_bearer := [{ key := "token", value := "\x7b\x7baccess_token\x7d\x7d", type := "string" }]
    vars :=
      [{ key := "base_url", value := "http://localhost:8080", type := "string" },
       { key := "access_token", value := "", type := "string" },
       { key := "refresh_token", value := "", type := "string" },
       { key := "user_id", value := "", type := "string" }]
    item := [] }

/-- Embedding of `PostmanCollectionBuilder.add_folder`. -/
def add_folder (metadata : List (String × MetaEntry)) (c : Collection)
    (name description : String) (endpoints : List Endpoint) : Collection :=
  { c with item := c.item ++ [{ name, description, item := endpoints.map (create_request metadata) }] }

/-- The category → emoji glyph table of `build`. -/
def icons : List (String × String) :=
  [("Health", "🏥"), ("Authentication", "🔐"), ("Onboarding", "🚀"), ("Users", "👤"),
   ("Security", "🔒"), ("Wallets", "💰"), ("Funding", "💸"), ("Investment", "📈"),
   ("Portfolio", "📊"), ("Analytics", "📉"), ("Market", "💹"), ("Scheduled Investments", "🔄"),
   ("Rebalancing", "⚖️"), ("Copy Trading", "👥"), ("Roundups", "🪙"), ("AI Chat", "🤖"),
   ("News", "📰"), ("Webhooks", "🔔"), ("Admin", "⚙️")]

/-- The folder title `build` assigns a group: `f'{icon} {group_name}'`
with the fallback glyph `'📁'` of `icons.get(group_name, '📁')`. -/
def iconName (group_name : String) : String :=
  ((icons.lookup group_name).getD "📁") ++ " " ++ group_name

/-- Embedding of `PostmanCollectionBuilder.build`: one `add_folder` per
entry of the grouped mapping, in order, accumulating onto the current
collection (the builder's mutable `self.collection`). -/
def build (metadata : List (String × MetaEntry)) (c : Collection)
    (grouped : List (String × List Endpoint)) : Collection :=
  grouped.foldl (fun acc g => add_folder metadata acc (iconName g.1) (g.1 ++ " endpoints") g.2) c

/-- The display names of every request item in the document, folder by
folder (flattened in order). -/
def allRequestNames (c : Collection) : List String :=
  c.item.flatMap fun f => f.item.map fun r => r.name

/-- The folder a grouped entry is turned into by `build`/`add_folder`. -/
def mkFolder (metadata : List (String × MetaEntry)) (g : String × List Endpoint) : Folder :=
  { name := iconName g.1, description := g.1 ++ " endpoints"
    item := g.2.map (create_request metadata) }

/-- Every endpoint built by `extract_from_file` carries the heuristic
auth flag computed from the file text and its own receiver. -/
theorem auth_required_of_mem_extract (content : String) (ep : Endpoint)
    (h : ep ∈ extract_from_file content) :
    ep.auth_required = authRequired content ep.group := by
  simp only [extract_from_file, List.mem_flatMap, List.mem_map] at h
  obtain ⟨v, _, t, _, rfl⟩ := h
  rfl

/-- Claim C1: for every endpoint candidate extracted from a source unit,
`auth_required` is false exactly when the unit's full text contains the
substring "noauth" (case-insensitively) and the candidate's receiver
identifier does not contain "protected" (case-insensitively). -/
theorem extract_auth_required_false_iff (content : String) (ep : Endpoint)
    (h : ep ∈ extract_from_file content) :
    ep.auth_required = false ↔
      (containsSub "noauth".toList (lowerL content.toList) = true ∧
        containsSub "protected".toList (lowerL ep.group.toList) = false) := by
  rw [auth_required_of_mem_extract content ep h]
  unfold authRequired
  rcases hA : containsSub "noauth".toList (lowerL content.toList) <;>
    rcases hB : containsSub "protected".toList (lowerL ep.group.toList) <;> simp

/-- A sample source unit containing "noauth" with a route on an
unprotected receiver, and the endpoint the extractor recovers from it. -/
def sampleNoauthUnit : String := "noauth r.GET(\"/x\", h)"

/-- The endpoint extracted from `sampleNoauthUnit`. -/
def sampleNoauthEp : Endpoint :=
  { method := "GET", path := "/x", handler := "h", auth_required := false, group := "r" }

/-- Witness for C1 at a concrete source unit containing "noauth" and a
route registered on the unprotected receiver `r`. -/
theorem extract_auth_required_false_iff_witness :
    sampleNoauthEp.auth_required = false ↔
      (containsSub "noauth".toList (lowerL sampleNoauthUnit.toList) = true ∧
        containsSub "protected".toList (lowerL sampleNoauthEp.group.toList) = false) :=
  extract_auth_required_false_iff sampleNoauthUnit sampleNoauthEp (by decide)

/-- Claim C3: a built request item has a body exactly when the method is
POST, PUT or PATCH and the metadata entry for its handler supplies a
body value; and whenever the body is attached, a
`Content-Type: application/json` header is added. -/
theorem request_body_iff (metadata : List (String × MetaEntry)) (ep : Endpoint) :
    (create_request metadata ep).body.isSome =
      (["POST", "PUT", "PATCH"].contains ep.method &&
        (metaFor metadata ep.handler).body.isSome) ∧
    ((create_request metadata ep).body.isSome = true →
      ("Content-Type", "application/json") ∈ (create_request metadata ep).header) := by
  unfold create_request
  rcases hm : ["POST", "PUT", "PATCH"].contains ep.method <;>
    rcases hb : (metaFor metadata ep.handler).body with _ | b <;>
      simp [hm, hb]

/-- Witness for C3: a concrete POST endpoint whose handler has a body
example in the metadata table. -/
theorem request_body_iff_witness :
    (create_request [("CreateH", { body := some "\x7b\x7d" })]
        { method := "POST", path := "/p", handler := "CreateH" }).body.isSome =
      (["POST", "PUT", "PATCH"].contains
          ({ method := "POST", path := "/p", handler := "CreateH" } : Endpoint).method &&
        (metaFor [("CreateH", { body := some "\x7b\x7d" })] "CreateH").body.isSome) ∧
    ((create_request [("CreateH", { body := some "\x7b\x7d" })]
        { method := "POST", path := "/p", handler := "CreateH" }).body.isSome = true →
      ("Content-Type", "application/json") ∈
        (create_request [("CreateH", { body := some "\x7b\x7d" })]
          { method := "POST", path := "/p", handler := "CreateH" }).header) :=
  request_body_iff [("CreateH", { body := some "\x7b\x7d" })]
    { method := "POST", path := "/p", handler := "CreateH" }

/-- Claim C9: a built request item carries an example response exactly
when the metadata entry for its handler supplies a response value; when
present it is a single response whose status code is 200 for GET and
201 for every other method. -/
theorem request_response_rule (metadata : List (String × MetaEntry)) (ep : Endpoint) :
    ((create_request metadata ep).response ≠ [] ↔
      (metaFor metadata ep.handler).response.isSome = true) ∧
    (∀ r ∈ (create_request metadata ep).response,
      (create_request metadata ep).response = [r] ∧
      r.code = if ep.method = "GET" then 200 else 201) := by
  unfold create_request
  rcases hr : (metaFor metadata ep.handler).response with _ | resp <;> simp [hr]

/-- Witness for C9: a concrete POST endpoint with a response example
gets exactly one example response with code 201. -/
theorem request_response_rule_witness :
    ((create_request [("CreateH", { response := some "\x7b\x7d" })]
        { method := "POST", path := "/p", handler := "CreateH" }).response ≠ [] ↔
      (metaFor [("CreateH", { response := some "\x7b\x7d" })] "CreateH").response.isSome = true) ∧
    (∀ r ∈ (create_request [("CreateH", { response := some "\x7b\x7d" })]
        { method := "POST", path := "/p", handler := "CreateH" }).response,
      (create_request [("CreateH", { response := some "\x7b\x7d" })]
          { method := "POST", path := "/p", handler := "CreateH" }).response = [r] ∧
      r.code = if ({ method := "POST", path := "/p", handler := "CreateH" } : Endpoint).method = "GET"
        then 200 else 201) :=
  request_response_rule [("CreateH", { response := some "\x7b\x7d" })]
    { method := "POST", path := "/p", handler := "CreateH" }

/-- Claim C5 counterexample: with an empty handler the display name is
the normalized path passed through `_format_name`, not the raw path
verbatim — the leading slash is forced and internal uppercase letters
get word-split.  Here the raw path `getUser` becomes `/get User`. -/
theorem empty_handler_raw_path_counterexample :
    (create_request [] { method := "GET", path := "getUser", handler := "" }).name ≠
      ({ method := "GET", path := "getUser", handler := "" } : Endpoint).path ∧
    (create_request [] { method := "GET", path := "getUser", handler := "" }).name =
      "/get User" := by
  decide

/-- Claim C5 (amended): for every Endpoint whose handler identifier is
empty, the display name is the path normalized to start with `/` and
passed through the same name formatting as handler names (`Handler`
token removal, space insertion before internal uppercase letters,
trimming) — not the raw path verbatim. -/
theorem empty_handler_name_formats_path (metadata : List (String × MetaEntry))
    (ep : Endpoint) (h : ep.handler = "") :
    (create_request metadata ep).name = format_name (normalizePath ep.path) := by
  unfold create_request
  simp [h]

/-- Witness for the amended C5 at a concrete endpoint. -/
theorem empty_handler_name_formats_path_witness :
    (create_request [] { method := "GET", path := "health", handler := "" }).name =
      format_name (normalizePath ({ method := "GET", path := "health", handler := "" } : Endpoint).path) :=
  empty_handler_name_formats_path [] { method := "GET", path := "health", handler := "" } rfl

/-- Splitting on a single space (used only to state what the claim calls
an "already space-separated words" name). -/
def splitSpaceAux : List Char → List Char → List String
  | [], acc => [String.mk acc.reverse]
  | c :: rest, acc =>
    if c = ' ' then String.mk acc.reverse :: splitSpaceAux rest []
    else splitSpaceAux rest (c :: acc)

/-- A name that is already space-separated words: one or more nonempty
alphabetic words separated by single spaces. -/
def spaceSeparatedWords (s : String) : Bool :=
  (splitSpaceAux s.toList []).all fun w => !w.toList.isEmpty && w.toList.all Char.isAlpha

/-- If `pat` occurs nowhere in `s` (as a contiguous substring), removing
its occurrences leaves `s` unchanged. -/
theorem removeSubAux_of_not_contains (pat : List Char) :
    ∀ fuel s, containsSub pat s = false → removeSubAux pat fuel s = s := by
  intro fuel
  induction fuel with
  | zero => intro s _; rfl
  | succ n ih =>
    intro s h
    cases s with
    | nil => rfl
    | cons c rest =>
      unfold containsSub at h
      rw [Bool.or_eq_false_iff] at h
      unfold removeSubAux
      rw [h.1, if_neg (by simp)]
      · rw [ih rest h.2]
      

/-- `removeSub` is the identity when the pattern does not occur. -/
theorem removeSub_of_not_contains (pat s : List Char) (h : containsSub pat s = false) :
    removeSub pat s = s :=
  removeSubAux_of_not_contains pat s.length s h

/-- A pattern starting with a character absent from `s` occurs nowhere. -/
theorem containsSub_eq_false_of_head_notin (p : Char) (pt s : List Char)
    (h : ∀ c ∈ s, c ≠ p) : containsSub (p :: pt) s = false := by
  induction s with
  | nil => rfl
  | cons c rest ih =>
    unfold containsSub isPfx
    rw [Bool.or_eq_false_iff]
    constructor
    · have : ¬ p = c := fun hpc => (h c (by simp)) hpc.symm
      simp [this]
    · exact ih fun c hc => h c (List.mem_cons_of_mem _ hc)

/-- The space-insertion pass is the identity on uppercase-free text. -/
theorem insertSpaces_of_no_upper :
    ∀ (s : List Char) (i : Nat), (∀ c ∈ s, c.isUpper = false) → insertSpaces i s = s := by
  intro s
  induction s with
  | nil => intro i _; rfl
  | cons c rest ih =>
    intro i h
    unfold insertSpaces
    rw [h c (by simp)]
    simp [ih (i + 1) fun c hc => h c (List.mem_cons_of_mem _ hc)]

/-- Claim C4 counterexample: `"Get User Profile"` is an
already-space-separated name, yet formatting it is not a no-op beyond
trimming — the space-insertion pass fires again on each internal
capitalized word, doubling the separators. -/
theorem format_name_counterexample :
    spaceSeparatedWords "Get User Profile" = true ∧
    format_name "Get User Profile" ≠ "Get User Profile" ∧
    format_name "Get User Profile" = "Get  User  Profile" := by
  decide

/-- Claim C4 (amended): formatting `"GetUserProfileHandler"` yields
`"Get User Profile"`; and formatting a name is a no-op beyond trimming
when the name contains no uppercase character and no occurrence of
`"handler"` (a space-separated name with internal capitalized words
gains an extra space before each such letter, and an embedded
`Handler`/`handler` token is stripped). -/
theorem format_name_example_and_noop (name : String)
    (h1 : ∀ c ∈ name.toList, c.isUpper = false)
    (h2 : containsSub "handler".toList name.toList = false) :
    format_name "GetUserProfileHandler" = "Get User Profile" ∧
    format_name name = String.mk (pyStrip name.toList) := by
  refine ⟨by decide, ?_⟩
  unfold format_name
  have hH : containsSub "Handler".toList name.toList = false := by
    have hrw : ("Handler".toList) = 'H' :: "andler".toList := by decide
    rw [hrw]
    refine containsSub_eq_false_of_head_notin _ _ _ fun c hc heq => ?_
    have hup := h1 c hc
    rw [heq] at hup
    exact absurd hup (by decide)
  rw [removeSub_of_not_contains _ _ hH, removeSub_of_not_contains _ _ h2,
    insertSpaces_of_no_upper _ 0 h1]

/-- Witness for the amended C4: `"get user profile"` is lowercase and
`handler`-free, and formatting it only trims. -/
theorem format_name_example_and_noop_witness :
    format_name "GetUserProfileHandler" = "Get User Profile" ∧
    format_name "get user profile" = String.mk (pyStrip ("get user profile" : String).toList) :=
  format_name_example_and_noop "get user profile" (by decide) (by decide)

/-- `build` only appends the grouped entries' folders to the current
item list; every other field of the collection is untouched. -/
theorem build_eq (metadata : List (String × MetaEntry)) (c : Collection)
    (grouped : List (String × List Endpoint)) :
    build metadata c grouped = { c with item := c.item ++ grouped.map (mkFolder metadata) } := by
  induction grouped generalizing c with
  | nil => simp [build]
  | cons p rest ih =>
    show build metadata (add_folder metadata c (iconName p.1) (p.1 ++ " endpoints") p.2) rest = _
    rw [ih]
    simp [add_folder, mkFolder]

/-- The request names of a freshly built document are exactly the
formatted names of the grouped endpoints, in order. -/
theorem allRequestNames_build (metadata : List (String × MetaEntry))
    (grouped : List (String × List Endpoint)) :
    allRequestNames (build metadata initialCollection grouped) =
      grouped.flatMap fun p => p.2.map fun ep => (create_request metadata ep).name := by
  rw [build_eq]
  unfold allRequestNames
  simp only [initialCollection, mkFolder, List.flatMap_map, List.map_map, List.nil_append]
  rfl

/-- Uniqueness of request display names across the whole document. -/
def uniqueRequestNames (c : Collection) : Prop := (allRequestNames c).Nodup

/-- Two distinct routes served by the same handler. -/
def dupNameEndpoints : List Endpoint :=
  [{ method := "GET", path := "/health", handler := "HealthHandler" },
   { method := "GET", path := "/live", handler := "HealthHandler" }]

/-- Claim C6 counterexample: nothing deduplicates display names — two
routes sharing the handler `HealthHandler` (here `/health` and `/live`,
both grouped under Health) yield two request items both named
`"Health"`, even for extractor-produced grouped input. -/
theorem unique_names_counterexample :
    allRequestNames (build [] initialCollection (get_grouped_endpoints dupNameEndpoints)) =
      ["Health", "Health"] ∧
    ¬ uniqueRequestNames (build [] initialCollection (get_grouped_endpoints dupNameEndpoints)) := by
  constructor
  · decide
  · unfold uniqueRequestNames
    decide

/-- The formatted display names the grouped input will produce, in
document order. -/
def groupedNames (metadata : List (String × MetaEntry))
    (grouped : List (String × List Endpoint)) : List String :=
  grouped.flatMap fun p => p.2.map fun ep => (create_request metadata ep).name

/-- Claim C6 (amended): the builder itself never deduplicates names —
the document's request names are exactly the formatted handler names
(or normalized paths for empty handlers) of the grouped endpoints, so
they are unique exactly when those formatted names are pairwise
distinct.  The claim as stated fails whenever two endpoints format to
the same display name. -/
theorem unique_names_of_distinct_formatted (metadata : List (String × MetaEntry))
    (grouped : List (String × List Endpoint))
    (h : (groupedNames metadata grouped).Nodup) :
    uniqueRequestNames (build metadata initialCollection grouped) := by
  unfold uniqueRequestNames
  rw [allRequestNames_build]
  exact h

/-- Witness for the amended C6 at a concrete grouped input with
distinct handler names. -/
theorem unique_names_of_distinct_formatted_witness :
    uniqueRequestNames (build [] initialCollection
      [("Health", [{ method := "GET", path := "/health", handler := "HealthHandler" }])]) :=
  unique_names_of_distinct_formatted []
    [("Health", [{ method := "GET", path := "/health", handler := "HealthHandler" }])]
    (by decide)

/-- Claim C10: `build` appends one folder per grouped entry to the
existing item list without clearing it, so building twice duplicates
every folder while the info, auth and variable blocks stay unchanged —
`build` is not idempotent on a non-empty grouped mapping. -/
theorem build_twice_duplicates (metadata : List (String × MetaEntry))
    (grouped : List (String × List Endpoint)) (h : grouped ≠ []) :
    (build metadata (build metadata initialCollection grouped) grouped).item =
      grouped.map (mkFolder metadata) ++ grouped.map (mkFolder metadata) ∧
    (∀ f ∈ grouped.map (mkFolder metadata),
      (build metadata (build metadata initialCollection grouped) grouped).item.count f =
        2 * (grouped.map (mkFolder metadata)).count f) ∧
    (build metadata (build metadata initialCollection grouped) grouped).item ≠
      (build metadata initialCollection grouped).item ∧
    (build metadata (build metadata initialCollection grouped) grouped).info_name =
      initialCollection.info_name ∧
    (build metadata (build metadata initialCollection grouped) grouped).info_description =
      initialCollection.info_description ∧
    (build metadata (build metadata initialCollection grouped) grouped).info_schema =
      initialCollection.info_schema ∧
    (build metadata (build metadata initialCollection grouped) grouped).info_version =
      initialCollection.info_version ∧
    (build metadata (build metadata initialCollection grouped) grouped).auth_type =
      initialCollection.auth_type ∧
    (build metadata (build metadata initialCollection grouped) grouped).auth_bearer =
      initialCollection.auth_bearer ∧
    (build metadata (build metadata initialCollection grouped) grouped).vars =
      initialCollection.vars := by
  have hF : grouped.map (mkFolder metadata) ≠ [] := by
    intro hnil
    exact h (List.map_eq_nil_iff.mp hnil)
  have h1 : build metadata initialCollection grouped =
      { initialCollection with item := grouped.map (mkFolder metadata) } := by
    rw [build_eq]
    rfl
  have h2 : build metadata { initialCollection with item := grouped.map (mkFolder metadata) } grouped =
      { initialCollection with
          item := grouped.map (mkFolder metadata) ++ grouped.map (mkFolder metadata) } := by
    rw [build_eq]
  rw [h1, h2]
  refine ⟨rfl, ?_, ?_, rfl, rfl, rfl, rfl, rfl, rfl, rfl⟩
  · intro f _
    simp [List.count_append, Nat.two_mul]
  · show grouped.map (mkFolder metadata) ++ grouped.map (mkFolder metadata) ≠
      grouped.map (mkFolder metadata)
    intro heq
    have hlen := congrArg List.length heq
    simp only [List.length_append] at hlen
    have : (grouped.map (mkFolder metadata)).length = 0 := by omega
    exact hF (List.length_eq_zero.mp this)

/-- A one-category grouped mapping used as a concrete witness input. -/
def sampleGrouped : List (String × List Endpoint) :=
  [("Health", [{ method := "GET", path := "/health", handler := "HealthHandler" }])]

/-- Witness for C10: building twice on the sample grouped mapping
duplicates its folder. -/
theorem build_twice_duplicates_witness :
    (build [] (build [] initialCollection sampleGrouped) sampleGrouped).item =
      sampleGrouped.map (mkFolder []) ++ sampleGrouped.map (mkFolder []) :=
  (build_twice_duplicates [] sampleGrouped (by decide)).1

/-- The classification loop, characterized: each group entry ends up
holding its initial endpoints followed by exactly the endpoints the
chain assigns to its key, in input order. -/
theorem foldl_groupStep (eps : List Endpoint) :
    ∀ g : List (String × List Endpoint),
      eps.foldl groupStep g =
        g.map fun p => (p.1, p.2 ++ eps.filter fun e => assignCategory e = some p.1) := by
  induction eps with
  | nil =>
    intro g
    simp
  | cons e rest ih =>
    intro g
    rw [List.foldl_cons, ih]
    unfold groupStep
    cases h : assignCategory e with
    | none =>
      apply List.map_congr_left
      intro p _
      have : ¬ (assignCategory e = some p.1) := by simp [h]
      simp [List.filter_cons, this]
    | some c =>
      unfold addToGroup
      rw [List.map_map]
      apply List.map_congr_left
      intro p _
      by_cases hc : p.1 = c
      · have : assignCategory e = some p.1 := by rw [h, hc]
        simp [Function.comp, hc, List.filter_cons, this]
      · have : ¬ (assignCategory e = some p.1) := by
          rw [h]
          simp
          exact fun hcp => hc hcp.symm
        simp [Function.comp, hc, List.filter_cons, this]

/-- `get_grouped_endpoints`, characterized: the nonempty categories in
taxonomy order, each with its assigned endpoints in input order. -/
theorem get_grouped_eq (eps : List Endpoint) :
    get_grouped_endpoints eps =
      (categories.map fun c => (c, eps.filter fun e => assignCategory e = some c)).filter
        fun p => !p.2.isEmpty := by
  unfold get_grouped_endpoints
  rw [foldl_groupStep]
  rw [List.map_map]
  rfl

/-- Membership in the grouped result, characterized. -/
theorem mem_get_grouped_iff (eps : List Endpoint) (c : String) (l : List Endpoint) :
    (c, l) ∈ get_grouped_endpoints eps ↔
      c ∈ categories ∧ l = eps.filter (fun e => assignCategory e = some c) ∧ l ≠ [] := by
  rw [get_grouped_eq]
  simp only [List.mem_filter, List.mem_map, Prod.mk.injEq]
  constructor
  · rintro ⟨⟨c', hc', hcc, hll⟩, hne⟩
    subst hcc
    subst hll
    refine ⟨hc', rfl, ?_⟩
    simpa using hne
  · rintro ⟨hc, hl, hne⟩
    refine ⟨⟨c, hc, rfl, hl.symm⟩, ?_⟩
    subst hl
    simpa using hne

/-- The ordered predicate table the classification chain implements:
category names paired with their path predicates, in priority order. -/
def categoryRules : List (String × (String → Bool)) :=
  [("Health", fun path => containsStr "/health" path || containsStr "/ready" path
      || containsStr "/live" path || containsStr "/version" path),
   ("Authentication", fun path => containsStr "/auth" path),
   ("Onboarding", fun path => containsStr "/onboarding" path),
   ("Users", fun path => containsStr "/users" path),
   ("Security", fun path => containsStr "/security" path || containsStr "/passcode" path),
   ("Wallets", fun path => containsStr "/wallet" path),
   ("Funding", fun path => containsStr "/funding" path || containsStr "/balances" path),
   ("Investment", fun path => containsStr "/investment" path || containsStr "/orders" path
      || containsStr "/positions" path),
   ("Portfolio", fun path => containsStr "/portfolio" path),
   ("Analytics", fun path => containsStr "/analytics" path),
   ("Market", fun path => containsStr "/market" path),
   ("Scheduled Investments", fun path => containsStr "/scheduled" path),
   ("Rebalancing", fun path => containsStr "/rebalancing" path),
   ("Copy Trading", fun path => containsStr "/copy" path),
   ("Roundups", fun path => containsStr "/roundup" path),
   ("AI Chat", fun path => containsStr "/ai" path),
   ("News", fun path => containsStr "/news" path),
   ("Webhooks", fun path => containsStr "/webhook" path),
   ("Admin", fun path => containsStr "/admin" path)]

/-- First-matching-rule scan over an ordered rule table. -/
def firstMatch : List (String × (String → Bool)) → String → Option String
  | [], _ => none
  | (n, pr) :: rest, path => if pr path then some n else firstMatch rest path

/-- The if/elif chain is exactly the first-match scan of the ordered
rule table on the lowercased path: the first matching predicate wins
and evaluation stops. -/
theorem assignCategory_eq_firstMatch (ep : Endpoint) :
    assignCategory ep = firstMatch categoryRules (lowerPath ep) := rfl

/-- A successful first-match scan yields a name from the table. -/
theorem firstMatch_mem (rules : List (String × (String → Bool))) (p c : String)
    (h : firstMatch rules p = some c) : c ∈ rules.map Prod.fst := by
  induction rules with
  | nil => simp [firstMatch] at h
  | cons r rest ih =>
    obtain ⟨n, pr⟩ := r
    unfold firstMatch at h
    split at h
    · simp only [Option.some.injEq] at h
      subst h
      simp
    · simp only [List.map_cons, List.mem_cons]
      exact Or.inr (ih h)

/-- The classification chain only ever produces taxonomy members. -/
theorem assignCategory_mem_categories (ep : Endpoint) (c : String)
    (h : assignCategory ep = some c) : c ∈ categories := by
  rw [assignCategory_eq_firstMatch] at h
  have hm := firstMatch_mem categoryRules (lowerPath ep) c h
  rw [show categoryRules.map Prod.fst = categories from rfl] at hm
  exact hm

/-- The grouped result's keys are distinct (one entry per category). -/
theorem get_grouped_keys_nodup (eps : List Endpoint) :
    ((get_grouped_endpoints eps).map Prod.fst).Nodup := by
  rw [get_grouped_eq]
  have hsub : ((categories.map fun c =>
        (c, eps.filter fun e => assignCategory e = some c)).filter
          fun p => !p.2.isEmpty).map Prod.fst |>.Sublist
      ((categories.map fun c => (c, eps.filter fun e => assignCategory e = some c)).map
        Prod.fst) :=
    (List.filter_sublist _).map Prod.fst
  have hcat : ((categories.map fun c =>
      (c, eps.filter fun e => assignCategory e = some c)).map Prod.fst) = categories := by
    rw [List.map_map]
    rfl
  refine List.Nodup.sublist hsub ?_
  rw [hcat]
  decide

/-- Claim C2: grouping places every extracted endpoint in exactly one
category's list — the chosen category is the first matching predicate
of the ordered rule table applied to the lowercased path; membership in
a grouped entry holds exactly for that category; an endpoint whose path
matches no predicate appears in no entry; and the entries' keys are
pairwise distinct, so the matching entry is unique. -/
theorem grouping_exclusive (eps : List Endpoint) (ep : Endpoint) (h : ep ∈ eps) :
    assignCategory ep = firstMatch categoryRules (lowerPath ep) ∧
    (∀ c l, (c, l) ∈ get_grouped_endpoints eps → (ep ∈ l ↔ assignCategory ep = some c)) ∧
    ((assignCategory ep).isSome = true →
      ∃ c l, (c, l) ∈ get_grouped_endpoints eps ∧ ep ∈ l) ∧
    (assignCategory ep = none →
      ∀ c l, (c, l) ∈ get_grouped_endpoints eps → ep ∉ l) ∧
    ((get_grouped_endpoints eps).map Prod.fst).Nodup := by
  refine ⟨assignCategory_eq_firstMatch ep, ?_, ?_, ?_, get_grouped_keys_nodup eps⟩
  · intro c l hm
    obtain ⟨_, hl, _⟩ := (mem_get_grouped_iff eps c l).mp hm
    subst hl
    simp [List.mem_filter, h]
  · intro hsome
    obtain ⟨c, hc⟩ := Option.isSome_iff_exists.mp hsome
    refine ⟨c, eps.filter (fun e => assignCategory e = some c), ?_, ?_⟩
    · refine (mem_get_grouped_iff eps c _).mpr
        ⟨assignCategory_mem_categories ep c hc, rfl, ?_⟩
      refine List.ne_nil_of_mem (a := ep) ?_
      simp [List.mem_filter, h, hc]
    · simp [List.mem_filter, h, hc]
  · intro hnone c l hm
    obtain ⟨_, hl, _⟩ := (mem_get_grouped_iff eps c l).mp hm
    subst hl
    simp [List.mem_filter, hnone]

/-- A health-check endpoint used as a concrete witness input. -/
def healthEp : Endpoint := { method := "GET", path := "/health", handler := "HealthHandler" }

/-- Witness for C2: the concrete endpoint `/health` sits in the grouped
Health entry exactly because the chain assigns it Health. -/
theorem grouping_exclusive_witness :
    healthEp ∈ [healthEp] ∧ (healthEp ∈ [healthEp] ↔ assignCategory healthEp = some "Health") :=
  ⟨by decide,
    (grouping_exclusive [healthEp] healthEp (by decide)).2.1 "Health" [healthEp] (by decide)⟩

/-- The nineteen folder titles are pairwise distinct. -/
theorem iconName_inj_on_categories :
    ∀ x ∈ categories, ∀ y ∈ categories, iconName x = iconName y → x = y := by
  decide

/-- Claim C8: a category to which zero endpoints were assigned is
absent from the grouped result, and no folder of the built document
carries its title. -/
theorem empty_category_elided (metadata : List (String × MetaEntry)) (eps : List Endpoint)
    (c : String) (h1 : c ∈ categories)
    (h2 : eps.filter (fun e => assignCategory e = some c) = []) :
    (∀ l, (c, l) ∉ get_grouped_endpoints eps) ∧
    (∀ f ∈ (build metadata initialCollection (get_grouped_endpoints eps)).item,
      f.name ≠ iconName c) := by
  constructor
  · intro l hm
    obtain ⟨_, hl, hne⟩ := (mem_get_grouped_iff eps c l).mp hm
    rw [h2] at hl
    exact hne hl
  · intro f hf
    rw [build_eq] at hf
    simp only [initialCollection, List.nil_append, List.mem_map] at hf
    obtain ⟨p, hp, hfp⟩ := hf
    obtain ⟨hpc, hpl, hpne⟩ := (mem_get_grouped_iff eps p.1 p.2).mp (by
      have : p = (p.1, p.2) := rfl
      rw [← this]
      exact hp)
    subst hfp
    show iconName p.1 ≠ iconName c
    intro heq
    have hpc' : p.1 = c := iconName_inj_on_categories p.1 hpc c h1 heq
    rw [hpc'] at hpl
    rw [h2] at hpl
    exact hpne hpl

/-- Witness for C8: with only a health route extracted, the Admin
category is absent from the grouped result. -/
theorem empty_category_elided_witness :
    ("Admin", [healthEp]) ∉ get_grouped_endpoints [healthEp] :=
  (empty_category_elided [] [healthEp] "Admin" (by decide) (by decide)).1 [healthEp]

/-- A maximal run of `p`-characters followed by a non-`p` head is a
unique way to split a list: two such splits coincide. -/
theorem run_unique_head (p : Char → Bool) :
    ∀ (a a' t t' : List Char), a ++ t = a' ++ t' →
      (∀ c ∈ a, p c = true) → (∀ c ∈ a', p c = true) →
      (∀ c, t.head? = some c → p c = false) → (∀ c, t'.head? = some c → p c = false) →
      a = a' ∧ t = t' := by
  intro a
  induction a with
  | nil =>
    intro a' t t' heq _ ha' ht _
    cases a' with
    | nil => exact ⟨rfl, by simpa using heq⟩
    | cons x a2 =>
      exfalso
      simp only [List.nil_append, List.cons_append] at heq
      have hx : t.head? = some x := by rw [heq]; rfl
      have h1 := ht x hx
      rw [ha' x (by simp)] at h1
      exact absurd h1 (by simp)
  | cons x a2 ih =>
    intro a' t t' heq ha ha' ht ht'
    cases a' with
    | nil =>
      exfalso
      simp only [List.nil_append, List.cons_append] at heq
      have hx : t'.head? = some x := by rw [← heq]; rfl
      have h1 := ht' x hx
      rw [ha x (by simp)] at h1
      exact absurd h1 (by simp)
    | cons y a2' =>
      simp only [List.cons_append, List.cons.injEq] at heq
      obtain ⟨rfl, heq2⟩ := heq
      obtain ⟨h1, h2⟩ := ih a2' t t' heq2
        (fun c hc => ha c (by simp [hc])) (fun c hc => ha' c (by simp [hc])) ht ht'
      exact ⟨by rw [h1], h2⟩

/-- Splitting off a satisfied run followed by a failing head computes
`takeWhile` and `dropWhile`. -/
theorem takeWhile_dropWhile_append_cons (p : Char → Bool) (a : List Char) (x : Char)
    (b : List Char) (ha : ∀ c ∈ a, p c = true) (hx : p x = false) :
    (a ++ x :: b).takeWhile p = a ∧ (a ++ x :: b).dropWhile p = x :: b := by
  induction a with
  | nil => simp [List.takeWhile, List.dropWhile, hx]
  | cons c a2 ih =>
    have hc : p c = true := ha c (by simp)
    obtain ⟨ih1, ih2⟩ := ih fun d hd => ha d (by simp [hd])
    constructor
    · simp only [List.cons_append, List.takeWhile_cons, hc, if_true, ih1]
    · simp only [List.cons_append, List.dropWhile_cons, hc, if_true, ih2]

/-- A list is a prefix (in the `isPfx` sense) of itself followed by
anything. -/
theorem isPfx_self_append (v rest : List Char) : isPfx v (v ++ rest) = true := by
  induction v with
  | nil => rfl
  | cons c v2 ih => simp [isPfx, ih]

/-- The head of a `dropWhile` residue fails the predicate. -/
theorem head_dropWhile_false (p : Char → Bool) :
    ∀ (l : List Char) (c : Char), (l.dropWhile p).head? = some c → p c = false := by
  intro l
  induction l with
  | nil => intro c hc; simp [List.dropWhile] at hc
  | cons x l2 ih =>
    intro c hc
    rw [List.dropWhile_cons] at hc
    by_cases hx : p x = true
    · rw [if_pos hx] at hc
      exact ih c hc
    · rw [if_neg hx] at hc
      simp only [List.head?_cons, Option.some.injEq] at hc
      subst hc
      exact Bool.not_eq_true _ |>.mp hx

/-- Word characters are not whitespace. -/
theorem word_not_space (c : Char) (h : isWordChar c = true) : isSpaceChar c = false := by
  by_cases hs : isSpaceChar c = true
  · exfalso
    unfold isSpaceChar at hs
    simp only [Bool.or_eq_true, decide_eq_true_eq] at hs
    rcases hs with ((((rfl | rfl) | rfl) | rfl) | rfl) | rfl <;> simp [isWordChar] at h
  · exact Bool.not_eq_true _ |>.mp hs

/-- Word characters are not quotes. -/
theorem word_not_quote (c : Char) (h : isWordChar c = true) : c ≠ '"' := by
  intro hc
  subst hc
  simp [isWordChar] at h

/-- A successful boolean prefix test decomposes the list. -/
theorem eq_append_of_isPfx : ∀ (v s : List Char), isPfx v s = true → s = v ++ s.drop v.length := by
  intro v
  induction v with
  | nil => intro s _; simp
  | cons a as ih =>
    intro s h
    cases s with
    | nil => simp [isPfx] at h
    | cons b bs =>
      unfold isPfx at h
      simp only [Bool.and_eq_true, decide_eq_true_eq] at h
      obtain ⟨rfl, h2⟩ := h
      simp only [List.length_cons, List.drop_succ_cons, List.cons_append, List.cons.injEq]
      exact ⟨trivial, ih bs h2⟩

/-- What a successful `matchAt` tells about its input: the input splits
into the matched shape, each quantified piece being a maximal run. -/
theorem matchAt_sound (v s r p h rest : List Char)
    (hm : matchAt v s = some ((r, p, h), rest)) :
    ∃ ws, s = r ++ ('.' :: (v ++ ('(' :: '"' :: (p ++ ('"' :: ',' :: (ws ++ (h ++ rest))))))) ∧
      r ≠ [] ∧ (∀ c ∈ r, isWordChar c = true) ∧
      p ≠ [] ∧ (∀ c ∈ p, (c != '"') = true) ∧
      (∀ c ∈ ws, isSpaceChar c = true) ∧
      h ≠ [] ∧ (∀ c ∈ h, isWordChar c = true) ∧
      (∀ c, rest.head? = some c → isWordChar c = false) := by
  unfold matchAt at hm
  split at hm
  case _ r₀ rr d s2 heqt heqd =>
    split at hm
    case isTrue hd =>
      subst hd
      split at hm
      case isTrue hpfx =>
        split at hm
        case _ o q s3 heq3 =>
          split at hm
          case isTrue hoq =>
            obtain ⟨rfl, rfl⟩ := hoq
            split at hm
            case _ u1 u2 p₀ pp q2 cm s5 heqt2 heqd2 =>
              split at hm
              case isTrue hqc =>
                obtain ⟨rfl, rfl⟩ := hqc
                split at hm
                case _ u3 u4 h₀ hh heqt3 =>
                  simp only [Option.some.injEq, Prod.mk.injEq] at hm
                  obtain ⟨⟨hr, hp, hh2⟩, hrest⟩ := hm
                  subst hr
                  subst hp
                  subst hh2
                  subst hrest
                  refine ⟨s5.takeWhile isSpaceChar, ?_, ?_, ?_, ?_, ?_, ?_, ?_, ?_, ?_⟩
                  · have hs : s = s.takeWhile isWordChar ++ s.dropWhile isWordChar :=
                      (List.takeWhile_append_dropWhile isWordChar s).symm
                    rw [heqt, heqd] at hs
                    have hs2 : s2 = v ++ s2.drop v.length := eq_append_of_isPfx v s2 hpfx
                    rw [heq3] at hs2
                    have hs3 : s3 = s3.takeWhile (fun c => c != '"') ++
                        s3.dropWhile (fun c => c != '"') :=
                      (List.takeWhile_append_dropWhile _ s3).symm
                    rw [heqt2, heqd2] at hs3
                    have hs5 : s5 = s5.takeWhile isSpaceChar ++
                        ((h₀ :: hh) ++ (s5.dropWhile isSpaceChar).dropWhile isWordChar) := by
                      conv_lhs => rw [← List.takeWhile_append_dropWhile isSpaceChar s5]
                      congr 1
                      conv_lhs =>
                        rw [← List.takeWhile_append_dropWhile isWordChar
                          (s5.dropWhile isSpaceChar)]
                      rw [heqt3]
                    conv_lhs => rw [hs, hs2, hs3, hs5]
                  · exact List.cons_ne_nil r₀ rr
                  · intro c hc
                    rw [← heqt] at hc
                    exact List.mem_takeWhile_imp hc
                  · exact List.cons_ne_nil p₀ pp
                  · intro c hc
                    rw [← heqt2] at hc
                    have h3 := List.mem_takeWhile_imp hc
                    simpa using h3
                  · intro c hc
                    exact List.mem_takeWhile_imp hc
                  · exact List.cons_ne_nil h₀ hh
                  · intro c hc
                    rw [← heqt3] at hc
                    exact List.mem_takeWhile_imp hc
                  · intro c hc
                    exact head_dropWhile_false isWordChar _ c hc
                case _ =>
                  exact absurd hm (by simp)
              case isFalse =>
                exact absurd hm (by simp)
            case _ =>
              exact absurd hm (by simp)
          case isFalse =>
            exact absurd hm (by simp)
        case _ =>
          exact absurd hm (by simp)
      case isFalse =>
        exact absurd hm (by simp)
    case isFalse =>
      exact absurd hm (by simp)
  case _ =>
    exact absurd hm (by simp)

/-- `matchAt` succeeds on a full route declaration placed at the head
of the input, capturing exactly its receiver, path and handler and
stopping right after the handler. -/
theorem matchAt_decl (v recv path ws handler post : List Char)
    (hrecv : ∀ c ∈ recv, isWordChar c = true) (hrne : recv ≠ [])
    (hpath : ∀ c ∈ path, (c != '"') = true) (hpne : path ≠ [])
    (hws : ∀ c ∈ ws, isSpaceChar c = true)
    (hhandler : ∀ c ∈ handler, isWordChar c = true) (hhne : handler ≠ []) :
    matchAt v (recv ++ ('.' :: (v ++ ('(' :: '"' ::
        (path ++ ('"' :: ',' :: (ws ++ (handler ++ (')' :: post))))))))) =
      some ((recv, path, handler), ')' :: post) := by
  obtain ⟨r₀, rr, rfl⟩ := List.exists_cons_of_ne_nil hrne
  obtain ⟨p₀, pp, rfl⟩ := List.exists_cons_of_ne_nil hpne
  obtain ⟨h₀, hh, rfl⟩ := List.exists_cons_of_ne_nil hhne
  have h1 := takeWhile_dropWhile_append_cons isWordChar (r₀ :: rr) '.'
    (v ++ ('(' :: '"' :: ((p₀ :: pp) ++ ('"' :: ',' ::
      (ws ++ ((h₀ :: hh) ++ (')' :: post))))))) hrecv (by decide)
  have h2 := takeWhile_dropWhile_append_cons (fun c => c != '"') (p₀ :: pp) '"'
    (',' :: (ws ++ ((h₀ :: hh) ++ (')' :: post)))) hpath (by decide)
  have h3 := takeWhile_dropWhile_append_cons isSpaceChar ws h₀ (hh ++ (')' :: post))
    hws (word_not_space h₀ (hhandler h₀ (by simp)))
  have h4 := takeWhile_dropWhile_append_cons isWordChar (h₀ :: hh) ')' post
    hhandler (by decide)
  unfold matchAt
  rw [h1.1, h1.2]
  dsimp only
  rw [if_pos rfl]
  simp only [isPfx_self_append, if_true]
  rw [List.drop_left]
  dsimp only
  rw [if_pos (And.intro rfl rfl)]
  rw [h2.1, h2.2]
  dsimp only
  rw [if_pos (And.intro rfl rfl)]
  simp only [List.cons_append] at h3 h4 ⊢
  rw [h3.2]
  rw [h4.1, h4.2]

/-- Scanning finds a route declaration whose opening quote is the first
quote of the input: some match with exactly the declaration's path and
handler is emitted.  (`fuel` at least the input length; the text before
the declaration contains no quote character.) -/
theorem findIterAux_finds (v : List Char) (hv : ∀ c ∈ v, c ≠ '"') :
    ∀ (fuel : Nat) (pre recv path ws handler post : List Char),
      (∀ c ∈ recv, isWordChar c = true) → recv ≠ [] →
      (∀ c ∈ path, (c != '"') = true) → path ≠ [] →
      (∀ c ∈ ws, isSpaceChar c = true) →
      (∀ c ∈ handler, isWordChar c = true) → handler ≠ [] →
      (∀ c ∈ pre, c ≠ '"') →
      (pre ++ (recv ++ ('.' :: (v ++ ('(' :: '"' ::
        (path ++ ('"' :: ',' :: (ws ++ (handler ++ (')' :: post)))))))))).length ≤ fuel →
      ∃ r, (r, path, handler) ∈ findIterAux v fuel
        (pre ++ (recv ++ ('.' :: (v ++ ('(' :: '"' ::
          (path ++ ('"' :: ',' :: (ws ++ (handler ++ (')' :: post)))))))))) := by
  intro fuel
  induction fuel with
  | zero =>
    intro pre recv path ws handler post _ hrne _ _ _ _ _ _ hlen
    exfalso
    obtain ⟨r₀, rr, rfl⟩ := List.exists_cons_of_ne_nil hrne
    simp [List.length_append] at hlen
  | succ fuel ih =>
    intro pre recv path ws handler post hrecv hrne hpath hpne hws hhandler hhne hpre hlen
    cases pre with
    | nil =>
      obtain ⟨r₀, rr, rfl⟩ := List.exists_cons_of_ne_nil hrne
      have hmd := matchAt_decl v (r₀ :: rr) path ws handler post hrecv
        (List.cons_ne_nil r₀ rr) hpath hpne hws hhandler hhne
      refine ⟨r₀ :: rr, ?_⟩
      simp only [List.nil_append, List.cons_append]
      simp only [List.cons_append] at hmd
      unfold findIterAux
      rw [hmd]
      exact List.mem_cons_self _ _
    | cons a pre' =>
      simp only [List.cons_append]
      rcases hma : matchAt v (a :: (pre' ++ (recv ++ ('.' :: (v ++ ('(' :: '"' ::
          (path ++ ('"' :: ',' :: (ws ++ (handler ++ (')' :: post))))))))))) with _ | mr
      · -- no match here: step one character and use the induction hypothesis
        unfold findIterAux
        rw [hma]
        have hlen' : (pre' ++ (recv ++ ('.' :: (v ++ ('(' :: '"' ::
            (path ++ ('"' :: ',' :: (ws ++ (handler ++ (')' :: post)))))))))).length ≤ fuel := by
          simp only [List.cons_append, List.length_cons] at hlen
          omega
        exact ih pre' recv path ws handler post hrecv hrne hpath hpne hws hhandler hhne
          (fun c hc => hpre c (List.mem_cons_of_mem a hc)) hlen'
      · -- a match fires here: it must align with the declaration
        obtain ⟨⟨r', p', h'⟩, rest⟩ := mr
        obtain ⟨ws', hseq, hr'ne, hr'w, hp'ne, hp'q, hws', hh'ne, hh'w, hrest⟩ :=
          matchAt_sound v _ r' p' h' rest hma
        -- canonical first-quote decompositions of the same string
        have e1 : a :: (pre' ++ (recv ++ ('.' :: (v ++ ('(' :: '"' ::
            (path ++ ('"' :: ',' :: (ws ++ (handler ++ (')' :: post)))))))))) =
            ((a :: pre') ++ (recv ++ ('.' :: (v ++ ['('])))) ++ '"' ::
              (path ++ ('"' :: ',' :: (ws ++ (handler ++ (')' :: post))))) := by
          simp
        have e2 : a :: (pre' ++ (recv ++ ('.' :: (v ++ ('(' :: '"' ::
            (path ++ ('"' :: ',' :: (ws ++ (handler ++ (')' :: post)))))))))) =
            (r' ++ ('.' :: (v ++ ['(']))) ++ '"' ::
              (p' ++ ('"' :: ',' :: (ws' ++ (h' ++ rest)))) := by
          rw [hseq]
          simp
        have hA : ∀ c ∈ (a :: pre') ++ (recv ++ ('.' :: (v ++ ['(']))), (c != '"') = true := by
          intro c hc
          simp only [List.mem_append, List.mem_cons, List.not_mem_nil, or_false] at hc
          have hcq : c ≠ '"' := by
            rcases hc with (rfl | hc) | hc | rfl | hc | rfl
            · exact hpre c (by simp)
            · exact hpre c (by simp [hc])
            · exact word_not_quote c (hrecv c hc)
            · decide
            · exact hv c hc
            · decide
          simpa using hcq
        have hA' : ∀ c ∈ r' ++ ('.' :: (v ++ ['('])), (c != '"') = true := by
          intro c hc
          simp only [List.mem_append, List.mem_cons, List.not_mem_nil, or_false] at hc
          have hcq : c ≠ '"' := by
            rcases hc with hc | rfl | hc | rfl
            · exact word_not_quote c (hr'w c hc)
            · decide
            · exact hv c hc
            · decide
          simpa using hcq
        have hsplit1 := run_unique_head (fun c => c != '"') _ _ _ _ (e1.symm.trans e2)
          hA hA' (by intro c hc; simp at hc; subst hc; decide)
          (by intro c hc; simp at hc; subst hc; decide)
        have hB := hsplit1.2
        simp only [List.cons.injEq, true_and] at hB
        -- second quote: the path literal
        have hsplit2 := run_unique_head (fun c => c != '"') path p'
          ('"' :: ',' :: (ws ++ (handler ++ (')' :: post))))
          ('"' :: ',' :: (ws' ++ (h' ++ rest))) hB hpath hp'q
          (by intro c hc; simp at hc; subst hc; decide)
          (by intro c hc; simp at hc; subst hc; decide)
        obtain ⟨hpeq, hC⟩ := hsplit2
        simp only [List.cons.injEq, true_and] at hC
        -- whitespace run, then handler run
        obtain ⟨hd₀, hdt, rfl⟩ := List.exists_cons_of_ne_nil hhne
        obtain ⟨g₀, gt, rfl⟩ := List.exists_cons_of_ne_nil hh'ne
        have hsplit3 := run_unique_head isSpaceChar ws ws'
          ((hd₀ :: hdt) ++ (')' :: post)) ((g₀ :: gt) ++ rest)
          (by simpa using hC) hws hws'
          (by
            intro c hc
            simp only [List.cons_append, List.head?_cons, Option.some.injEq] at hc
            subst hc
            exact word_not_space hd₀ (hhandler hd₀ (by simp)))
          (by
            intro c hc
            simp only [List.cons_append, List.head?_cons, Option.some.injEq] at hc
            subst hc
            exact word_not_space g₀ (hh'w g₀ (by simp)))
        have hsplit4 := run_unique_head isWordChar (hd₀ :: hdt) (g₀ :: gt)
          (')' :: post) rest (by simpa using hsplit3.2) hhandler hh'w
          (by intro c hc; simp at hc; subst hc; decide) hrest
        -- the emitted triple is ours
        refine ⟨r', ?_⟩
        unfold findIterAux
        rw [hma]
        rw [hpeq, hsplit4.1]
        exact List.mem_cons_self _ _

/-- A literal route declaration of the recognized shape
`recv.VERB("path", handler)` occurring somewhere in the unit's text
(stated from the claim: receiver and handler are nonempty identifier
strings, the path literal is nonempty and quote-free, and only
whitespace separates the comma from the handler). -/
def RouteDeclAt (content verb path handler : String) : Prop :=
  ∃ pre recv ws post : List Char,
    content.toList = pre ++ (recv ++ ('.' :: (verb.toList ++ ('(' :: '"' ::
      (path.toList ++ ('"' :: ',' :: (ws ++ (handler.toList ++ (')' :: post))))))))) ∧
    recv ≠ [] ∧ (∀ c ∈ recv, isWordChar c = true) ∧
    path.toList ≠ [] ∧ (∀ c ∈ path.toList, c ≠ '"') ∧
    (∀ c ∈ ws, isSpaceChar c = true) ∧
    handler.toList ≠ [] ∧ (∀ c ∈ handler.toList, isWordChar c = true)

/-- Claim C7 counterexample: in
`a.GET("b.GET(", c", d)` the full declaration `b.GET(", c", d)` (with
path `, c` and handler `d`) is present, but the leftmost scan first
matches `a.GET("b.GET(", c` — whose span overlaps it — and resumes
after `c`, so no endpoint with path `, c` and handler `d` is ever
produced. -/
theorem extract_misses_overlapped_decl :
    RouteDeclAt "a.GET(\"b.GET(\", c\", d)" "GET" ", c" "d" ∧
    ∀ ep ∈ extract_from_file "a.GET(\"b.GET(\", c\", d)",
      ¬ (ep.method = "GET" ∧ ep.path = ", c" ∧ ep.handler = "d") := by
  constructor
  · exact ⟨"a.GET(\"".toList, "b".toList, [' '], [],
      by decide, by decide, by decide, by decide, by decide, by decide, by decide, by decide⟩
  · decide

/-- Claim C7 (amended): for every literal route declaration of the
recognized shape `X.METHOD("path", handler)` in a source unit's text
whose opening quote is the first quote character of the unit (in
particular, the unit's first declaration), extraction produces an
Endpoint with exactly that method, path and handler.  Later
declarations can be skipped when the text matched for an earlier,
overlapping occurrence of the same verb's pattern covers their start:
the scan collects non-overlapping matches, leftmost first. -/
theorem extract_finds_unoverlapped_decl (content : String) (v : String) (hv : v ∈ verbs)
    (pre recv path ws handler post : List Char)
    (hsplit : content.toList = pre ++ (recv ++ ('.' :: (v.toList ++ ('(' :: '"' ::
      (path ++ ('"' :: ',' :: (ws ++ (handler ++ (')' :: post))))))))))
    (hpre : ∀ c ∈ pre, c ≠ '"')
    (hrecv : ∀ c ∈ recv, isWordChar c = true) (hrne : recv ≠ [])
    (hpath : ∀ c ∈ path, c ≠ '"') (hpne : path ≠ [])
    (hws : ∀ c ∈ ws, isSpaceChar c = true)
    (hhandler : ∀ c ∈ handler, isWordChar c = true) (hhne : handler ≠ []) :
    ∃ ep ∈ extract_from_file content,
      ep.method = v ∧ ep.path = String.mk path ∧ ep.handler = String.mk handler := by
  have hvq : ∀ c ∈ v.toList, c ≠ '"' := by
    simp only [verbs, List.mem_cons, List.not_mem_nil, or_false] at hv
    rcases hv with rfl | rfl | rfl | rfl | rfl <;> decide
  have hpath' : ∀ c ∈ path, (c != '"') = true := fun c hc => by simpa using hpath c hc
  have hmain := findIterAux_finds v.toList hvq content.toList.length pre recv path ws
    handler post hrecv hrne hpath' hpne hws hhandler hhne hpre
    (by rw [hsplit])
  obtain ⟨r, hr⟩ := hmain
  refine ⟨{ method := v, path := String.mk path, handler := String.mk handler,
            auth_required := authRequired content (String.mk r),
            group := String.mk r }, ?_, rfl, rfl, rfl⟩
  unfold extract_from_file
  rw [List.mem_flatMap]
  refine ⟨v, hv, ?_⟩
  rw [List.mem_map]
  refine ⟨(r, path, handler), ?_, rfl⟩
  unfold findIter
  rw [hsplit]
  rw [hsplit] at hr
  exact hr

/-- Witness for the amended C7: the first (and only) declaration of a
concrete unit is extracted with its method, path and handler. -/
theorem extract_finds_unoverlapped_decl_witness :
    ∃ ep ∈ extract_from_file "router.GET(\"/health\", HealthHandler)",
      ep.method = "GET" ∧ ep.path = String.mk "/health".toList ∧
      ep.handler = String.mk "HealthHandler".toList :=
  extract_finds_unoverlapped_decl "router.GET(\"/health\", HealthHandler)" "GET" (by decide)
    [] "router".toList "/health".toList [' '] "HealthHandler".toList []
    (by decide) (by decide) (by decide) (by decide) (by decide) (by decide)
    (by decide) (by decide) (by decide)
